import Mathlib

/-!
Shallow embedding of `build.py` (Swedish word-frequency builder).

Conventions used throughout:
* Python `collections.Counter` objects are embedded as insertion-ordered
  association lists `List (String × Nat)` (`CounterL`).  Python dict
  equality (same key set, same value per key, order irrelevant) is
  `counterEquiv`.
* Python strings are Lean `String`s; character-level work happens on
  `String.data` (a `List Char`), which matches Python's per-code-point view.
* `str.lower()` is embedded by `pyLowerChar`, defined on the character
  ranges the tokenizer's regex distinguishes (ASCII letters and the Nordic
  letters listed in `_WORD_RE`); every other character is left unchanged,
  which is observationally equivalent for the tokenizer since such
  characters are token separators either way.
* `re.findall` of the character-class regex `_WORD_RE` is `wordRuns`:
  the maximal runs of class characters.
-/

/-- Character class of the regex `_WORD_RE = [a-zåäöéèüæøA-ZÅÄÖÉÈÜÆØ]+`. -/
def isWordChar (c : Char) : Bool :=
  ('a' ≤ c && c ≤ 'z') || ('A' ≤ c && c ≤ 'Z') ||
  (c == 'å' || c == 'ä' || c == 'ö' || c == 'é' || c == 'è' || c == 'ü' || c == 'æ' || c == 'ø') ||
  (c == 'Å' || c == 'Ä' || c == 'Ö' || c == 'É' || c == 'È' || c == 'Ü' || c == 'Æ' || c == 'Ø')

/-- Embedding of Python `str.lower()` on the characters `_WORD_RE` can
distinguish: ASCII `A`-`Z` and the uppercase Nordic letters of the class map
to their lowercase forms, all other characters are unchanged. -/
def pyLowerChar (c : Char) : Char :=
  if 'A' ≤ c && c ≤ 'Z' then Char.ofNat (c.toNat + 32)
  else if c == 'Å' then 'å'
  else if c == 'Ä' then 'ä'
  else if c == 'Ö' then 'ö'
  else if c == 'É' then 'é'
  else if c == 'È' then 'è'
  else if c == 'Ü' then 'ü'
  else if c == 'Æ' then 'æ'
  else if c == 'Ø' then 'ø'
  else c

/-- Worker for `wordRuns`: `acc` holds the current (reversed) run of word
characters. -/
def runsAux : List Char → List Char → List (List Char)
  | [], acc => if acc.isEmpty then [] else [acc.reverse]
  | c :: rest, acc =>
      if isWordChar c then runsAux rest (c :: acc)
      else if acc.isEmpty then runsAux rest []
      else acc.reverse :: runsAux rest []

/-- Embedding of `_WORD_RE.findall`: the maximal runs of `isWordChar`
characters of a character list. -/
def wordRuns (cs : List Char) : List (List Char) := runsAux cs []

/-- Insertion-ordered association-list embedding of `collections.Counter`. -/
abbrev CounterL := List (String × Nat)

/-- Embedding of `Counter.__getitem__` / `dict.get(w, 0)`: the value at key
`w`, and `0` when `w` is absent.  A Python dict holds each key at most once,
so reading the first matching entry is exact. -/
def counterGet : CounterL → String → Nat
  | [], _ => 0
  | p :: c, w => if p.1 = w then p.2 else counterGet c w

/-- Embedding of `counter[w] += 1`: update the (unique) entry with key `w` in
place when present, else append a fresh entry with count 1 (Python dicts
append new keys in insertion order). -/
def counterIncr : CounterL → String → CounterL
  | [], w => [(w, 1)]
  | p :: c, w => if p.1 = w then (p.1, p.2 + 1) :: c else p :: counterIncr c w

/-- Embedding of `counter[w] = v`: overwrite the (unique) entry with key `w`
in place when present, else append. -/
def counterSet : CounterL → String → Nat → CounterL
  | [], w, v => [(w, v)]
  | p :: c, w, v => if p.1 = w then (p.1, v) :: c else p :: counterSet c w v

/-- Embedding of `Counter.update(other)` for a `Counter` argument:
for each entry of `other`, `self[k] = self.get(k, 0) + count`. -/
def counterUpdate (a b : CounterL) : CounterL :=
  b.foldl (fun acc p => counterSet acc p.1 (counterGet acc p.1 + p.2)) a

/-- Embedding of `sum(counter.values())`. -/
def totalValues (c : CounterL) : Nat := (c.map (fun p => p.2)).sum

/-- The key list of a counter (Python `dict` keys, in insertion order). -/
def keysOf (c : CounterL) : List String := c.map (fun p => p.1)

/-- Python dicts cannot hold a key twice; the counters the pipeline builds
always satisfy this. -/
def NodupKeys (c : CounterL) : Prop := (keysOf c).Nodup

/-- Python `==` on two counters viewed as dicts: the same key set and the
same value at every key (insertion order is ignored by dict equality). -/
def counterEquiv (a b : CounterL) : Prop :=
  (∀ w, counterGet a w = counterGet b w) ∧ (∀ w, w ∈ keysOf a ↔ w ∈ keysOf b)

/-- Sum of the values of all entries of `c` whose key is `w` (coincides with
`counterGet c w` when the keys of `c` are distinct). -/
def getSum (c : CounterL) (w : String) : Nat :=
  ((c.filter (fun p => p.1 == w)).map (fun p => p.2)).sum

def ENGLISH_STOPWORDS : List String := [
  "the", "of", "a", "and", "to", "in", "that", "was",
  "he", "it", "his", "is", "with", "for", "as", "had",
  "her", "not", "but", "at", "be", "this", "have", "from",
  "or", "by", "which", "you", "an", "were", "are", "been",
  "has", "their", "said", "each", "she", "do", "its", "about",
  "would", "them", "made", "after", "could", "than", "other", "into",
  "more", "some", "time", "very", "when", "come", "can", "no",
  "most", "only", "over", "such", "also", "back", "should", "well",
  "these", "where", "just", "we", "what", "your", "out", "if",
  "will", "up", "my", "who", "so", "they", "did", "him",
  "work", "any", "may", "then", "first", "all", "our", "free",
  "state", "one", "two", "way", "project", "gutenberg", "ebook", "license",
  "electronic", "works", "foundation", "terms", "copy", "distributed", "redistribution", "agreement",
  "trademark", "paragraph", "donations", "copyright", "permission", "archive", "donation", "volunteers",
  "compliance", "literary", "domain", "public", "refund", "replacement", "defect", "disclaimer",
  "warranties", "including", "limited", "merchantability", "www", "http", "org", "htm",
  "txt", "utf"]

def SHARED_WORDS : List String := [
  "i", "de", "en", "se", "man", "nu", "du", "vi",
  "den", "han", "hon", "sin", "an", "under", "in", "fort",
  "hand", "modern", "barn", "salt", "sand", "berg", "is", "fin",
  "hall", "full", "land", "rum", "folk", "arm", "form", "plan",
  "film", "ring", "start", "all", "organ", "rest", "lever", "horn",
  "mask", "nor", "order"]

/-- The words `tokenize_and_count` extracts from `text`: the maximal letter
runs of the lowercased text (`_WORD_RE.findall(text.lower())`). -/
def extractedRuns (text : String) : List String :=
  (wordRuns (text.data.map pyLowerChar)).map (fun cs => String.mk cs)

/-- The per-word loop body of `tokenize_and_count`: `continue` on a length
out of `[1, 40]` or a stop word that is not a shared word; else count. -/
def tokenStep (c : CounterL) (w : String) : CounterL :=
  if w.length < 1 ∨ w.length > 40 then c
  else if w ∈ ENGLISH_STOPWORDS ∧ w ∉ SHARED_WORDS then c
  else counterIncr c w

/-- Embedding of `tokenize_and_count`. -/
def tokenize_and_count (text : String) : CounterL :=
  (extractedRuns text).foldl tokenStep []

/-- The filter that `tokenStep` applies before counting a word. -/
def keepWord (w : String) : Prop :=
  ¬(w.length < 1 ∨ w.length > 40) ∧ ¬(w ∈ ENGLISH_STOPWORDS ∧ w ∉ SHARED_WORDS)

instance : DecidablePred keepWord := fun w => by unfold keepWord; infer_instance

def START_MARKERS : List String := [
  "*** START OF THIS PROJECT GUTENBERG",
  "*** START OF THE PROJECT GUTENBERG",
  "***START OF THIS PROJECT GUTENBERG",
  "*** START OF THIS",
  "*END*THE SMALL PRINT"]

def END_MARKERS : List String := [
  "*** END OF THIS PROJECT GUTENBERG",
  "*** END OF THE PROJECT GUTENBERG",
  "***END OF THIS PROJECT GUTENBERG",
  "*** END OF THIS",
  "End of Project Gutenberg",
  "End of the Project Gutenberg"]

/-- Embedding of Python `text.find(pat)`: index of the first occurrence of
`pat` as a contiguous substring, `none` when absent (Python returns `-1`). -/
def findSub (pat : List Char) : List Char → Option Nat
  | [] => if pat.isEmpty then some 0 else none
  | c :: rest =>
      if pat.isPrefixOf (c :: rest) then some 0
      else (findSub pat rest).map (fun i => i + 1)

/-- Embedding of `text.find(pat, start)`. -/
def findSubFrom (pat : List Char) (t : List Char) (start : Nat) : Option Nat :=
  (findSub pat (t.drop start)).map (fun i => i + start)

/-- The start-marker loop of `strip_gutenberg_boilerplate`: the first marker
(in listed priority order) found anywhere wins; everything up to and
including the line containing it is discarded; the loop breaks even when no
newline follows the marker. -/
def stripStart : List String → List Char → List Char
  | [], t => t
  | m :: ms, t =>
      match findSub m.data t with
      | some idx =>
          match findSubFrom ['\n'] t idx with
          | some nl => t.drop (nl + 1)
          | none => t
      | none => stripStart ms t

/-- The end-marker loop of `strip_gutenberg_boilerplate`: the first marker
(in listed priority order) found anywhere wins; everything from the marker
on is discarded. -/
def stripEnd : List String → List Char → List Char
  | [], t => t
  | m :: ms, t =>
      match findSub m.data t with
      | some idx => t.take idx
      | none => stripEnd ms t

/-- Embedding of `strip_gutenberg_boilerplate` on character lists. -/
def strip_gutenberg_boilerplate (t : List Char) : List Char :=
  stripEnd END_MARKERS (stripStart START_MARKERS t)

/-- A document handed to the per-document worker.  `ext` is the lowercased
extension `os.path.splitext` yields for `path`; `raw` is the text the
format handler for that extension would return (`none` embeds both a handler
exception, caught by `extract_text`, and `extract_text_pdf` returning `None`
when PyMuPDF is unavailable).  For `.txt` the handler output already has
Gutenberg boilerplate stripped, which is internal to the handler and
irrelevant to the worker/aggregator claims. -/
structure Document where
  path : String
  ext : String
  raw : Option String

/-- The key set of the `HANDLERS` dispatch dict. -/
def supportedExts : List String := [".txt", ".pdf", ".epub"]

/-- Embedding of `extract_text`: dispatch on the extension, `None` for an
unknown extension, and the handler result (with exceptions mapped to `None`)
otherwise. -/
def extract_text (d : Document) : Option String :=
  if supportedExts.contains d.ext then d.raw else none

/-- Embedding of `process_single_file`.  Python's guard is
`if not text or len(text) < 100`; the empty string has length `0 < 100`, so
the two disjuncts collapse to the length test. -/
def process_single_file (d : Document) : Option (CounterL × String) :=
  match extract_text d with
  | none => none
  | some text => if text.length < 100 then none else some (tokenize_and_count text, d.path)

/-- Embedding of `os.path.basename` for POSIX paths. -/
def basename (p : String) : String :=
  String.mk ((p.data.reverse.takeWhile (fun c => c != '/')).reverse)

/-- One reduction step of `build_frequency_counter`'s collection loop, for
one worker result: a `None` result bumps `n_failed`; otherwise the
sub-counter is merged into the total by `Counter.update` and the
`(basename, word_count)` pair is appended to `book_stats`. -/
def aggStep (acc : CounterL × List (String × Nat) × Nat) (d : Document) :
    CounterL × List (String × Nat) × Nat :=
  match process_single_file d with
  | none => (acc.1, acc.2.1, acc.2.2 + 1)
  | some (sub, filepath) =>
      (counterUpdate acc.1 sub,
       acc.2.1 ++ [(basename filepath, totalValues sub)],
       acc.2.2)

/-- Embedding of `build_frequency_counter`: the result collection loop,
returning `(total_counter, book_stats, n_failed)`.  The worker pool hands
results back in a nondeterministic order; the embedding folds over the
documents in the given order, and the order-independence of the total
counter is exactly claim C2.  The `n_total == 0` early return and the
progress bar do not change the returned value. -/
def build_frequency_counter (files : List Document) :
    CounterL × List (String × Nat) × Nat :=
  files.foldl aggStep ([], [], 0)

/-- Embedding of the `SWADESH_SWEDISH` dict as the insertion-ordered list of
its `(word, meaning)` items (the literal has no duplicate key, so
`dict.items()` yields exactly this list). -/
def SWADESH_SWEDISH : List (String × String) := [
  ("jag", "I"), ("du", "you (singular)"), ("han", "he"),
  ("hon", "she"), ("vi", "we"), ("ni", "you (plural)"),
  ("de", "they"), ("dem", "them"), ("den", "it / that"),
  ("det", "it (neuter)"), ("denna", "this"), ("detta", "this (neuter)"),
  ("här", "here"), ("där", "there"), ("vem", "who"),
  ("vad", "what"), ("var", "was / where"), ("när", "when"),
  ("hur", "how"), ("inte", "not"), ("alla", "all"),
  ("många", "many"), ("några", "some"), ("få", "few / to get"),
  ("andra", "other"), ("en", "a / one"), ("ett", "a / one (neuter)"),
  ("två", "two"), ("tre", "three"), ("fyra", "four"),
  ("fem", "five"), ("stor", "big"), ("lång", "long"),
  ("bred", "wide"), ("tjock", "thick"), ("tung", "heavy"),
  ("liten", "small"), ("kort", "short"), ("smal", "narrow"),
  ("tunn", "thin"), ("kvinna", "woman"), ("man", "man"),
  ("människa", "person"), ("barn", "child"), ("hustru", "wife"),
  ("make", "husband"), ("mor", "mother"), ("far", "father"),
  ("djur", "animal"), ("fisk", "fish"), ("fågel", "bird"),
  ("hund", "dog"), ("lus", "louse"), ("orm", "snake"),
  ("mask", "worm"), ("träd", "tree"), ("skog", "forest"),
  ("käpp", "stick"), ("frukt", "fruit"), ("frö", "seed"),
  ("blad", "leaf"), ("rot", "root"), ("bark", "bark (tree)"),
  ("blomma", "flower"), ("gräs", "grass"), ("rep", "rope"),
  ("hud", "skin"), ("kött", "meat / flesh"), ("blod", "blood"),
  ("ben", "bone / leg"), ("fett", "fat"), ("ägg", "egg"),
  ("horn", "horn"), ("svans", "tail"), ("fjäder", "feather"),
  ("hår", "hair"), ("huvud", "head"), ("öra", "ear"),
  ("öga", "eye"), ("näsa", "nose"), ("mun", "mouth"),
  ("tand", "tooth"), ("tunga", "tongue"), ("nagel", "fingernail"),
  ("fot", "foot"), ("knä", "knee"), ("hand", "hand"),
  ("vinge", "wing"), ("mage", "belly"), ("inälvor", "guts"),
  ("hals", "neck"), ("rygg", "back (body)"), ("bröst", "breast"),
  ("hjärta", "heart"), ("lever", "liver"), ("dricka", "to drink"),
  ("äta", "to eat"), ("bita", "to bite"), ("se", "to see"),
  ("höra", "to hear"), ("veta", "to know"), ("tänka", "to think"),
  ("lukta", "to smell"), ("frukta", "to fear"), ("sova", "to sleep"),
  ("leva", "to live"), ("dö", "to die"), ("döda", "to kill"),
  ("kämpa", "to fight"), ("jaga", "to hunt"), ("slå", "to hit"),
  ("skära", "to cut"), ("dela", "to split"), ("sticka", "to stab"),
  ("klia", "to scratch"), ("gräva", "to dig"), ("simma", "to swim"),
  ("flyga", "to fly"), ("gå", "to walk / go"), ("komma", "to come"),
  ("ligga", "to lie down"), ("sitta", "to sit"), ("stå", "to stand"),
  ("vända", "to turn"), ("falla", "to fall"), ("ge", "to give"),
  ("hålla", "to hold"), ("klämma", "to squeeze"), ("gnida", "to rub"),
  ("tvätta", "to wash"), ("torka", "to wipe / dry"), ("dra", "to pull"),
  ("trycka", "to push"), ("kasta", "to throw"), ("binda", "to tie"),
  ("sy", "to sew"), ("räkna", "to count"), ("säga", "to say"),
  ("sjunga", "to sing"), ("leka", "to play"), ("flyta", "to float"),
  ("flöda", "to flow"), ("frysa", "to freeze"), ("svälla", "to swell"),
  ("sol", "sun"), ("måne", "moon"), ("stjärna", "star"),
  ("vatten", "water"), ("regn", "rain"), ("flod", "river"),
  ("sjö", "lake"), ("hav", "sea"), ("salt", "salt"),
  ("sten", "stone"), ("sand", "sand"), ("stoft", "dust"),
  ("jord", "earth"), ("moln", "cloud"), ("dimma", "fog"),
  ("himmel", "sky"), ("vind", "wind"), ("snö", "snow"),
  ("is", "ice"), ("rök", "smoke"), ("eld", "fire"),
  ("aska", "ash"), ("bränna", "to burn"), ("väg", "road / path"),
  ("berg", "mountain"), ("röd", "red"), ("grön", "green"),
  ("gul", "yellow"), ("vit", "white"), ("svart", "black"),
  ("natt", "night"), ("dag", "day"), ("år", "year"),
  ("varm", "warm"), ("kall", "cold"), ("full", "full"),
  ("ny", "new"), ("gammal", "old"), ("god", "good"),
  ("dålig", "bad"), ("rutten", "rotten"), ("smutsig", "dirty"),
  ("rak", "straight"), ("rund", "round"), ("vass", "sharp"),
  ("slö", "dull / lazy"), ("slät", "smooth"), ("våt", "wet"),
  ("torr", "dry"), ("rätt", "right / correct"), ("nära", "near"),
  ("långt", "far (distance)"), ("höger", "right (dir.)"), ("vänster", "left"),
  ("vid", "at / by"), ("i", "in"), ("med", "with"),
  ("och", "and"), ("om", "if / about"), ("för", "for / because"),
  ("namn", "name"), ("vara", "to be"), ("ha", "to have"),
  ("bli", "to become"), ("ska", "shall / will"), ("kan", "can"),
  ("måste", "must"), ("ville", "wanted"), ("skulle", "would"),
  ("hade", "had"), ("är", "is / am / are"), ("blev", "became"),
  ("finns", "exists / there is"), ("sig", "oneself"), ("sin", "his/her (own)"),
  ("sitt", "his/her (own, n.)"), ("sina", "his/her (own, pl.)"), ("min", "my"),
  ("mitt", "my (neuter)"), ("din", "your"), ("hans", "his"),
  ("hennes", "her"), ("som", "who / which / that"), ("att", "to / that"),
  ("av", "of / from"), ("på", "on / at"), ("till", "to"),
  ("från", "from"), ("ut", "out"), ("upp", "up"),
  ("ner", "down"), ("över", "over"), ("under", "under"),
  ("mellan", "between"), ("efter", "after"), ("före", "before"),
  ("genom", "through"), ("hos", "at (someone\x27s)"), ("mot", "towards / against"),
  ("utan", "without"), ("också", "also"), ("redan", "already"),
  ("bara", "only / just"), ("nog", "enough / probably"), ("mycket", "much / very"),
  ("mer", "more"), ("mest", "most"), ("sedan", "since / then"),
  ("nu", "now"), ("aldrig", "never"), ("alltid", "always"),
  ("ja", "yes"), ("nej", "no")]

/-- One element of `build_swadesh_data`'s result list:
`{"sv": ..., "en": ..., "freq": ...}`. -/
structure RankedEntry where
  sv : String
  en : String
  freq : Nat
  deriving DecidableEq, Repr

def TIER1_SIZE : Nat := 50
def TIER2_SIZE : Nat := 100

/-- Stable descending insertion by `freq`: the inserted element jumps over an
existing one only when its frequency is strictly larger, so elements of equal
frequency keep their relative order. -/
def insertDesc (x : RankedEntry) : List RankedEntry → List RankedEntry
  | [] => [x]
  | y :: ys => if y.freq ≤ x.freq then x :: y :: ys else y :: insertDesc x ys

/-- Stable descending sort by `freq`.  Python's `list.sort(key=..., reverse=True)`
is a stable sort, and the output of a stable sort under a fixed key is unique,
so this insertion sort computes exactly what `results.sort` computes. -/
def sortDesc : List RankedEntry → List RankedEntry
  | [] => []
  | x :: xs => insertDesc x (sortDesc xs)

/-- Embedding of `build_swadesh_data`: one entry per `SWADESH_SWEDISH` item
with `freq = total_counter.get(sv, 0)`, sorted by frequency descending with
Python's stable sort. -/
def build_swadesh_data (total_counter : CounterL) : List RankedEntry :=
  sortDesc (SWADESH_SWEDISH.map (fun p => ⟨p.1, p.2, counterGet total_counter p.1⟩))

/-- Sum of the frequencies of a slice of the ranked list. -/
def sumFreq (l : List RankedEntry) : Nat := (l.map (fun e => e.freq)).sum

/-- Round-half-even to an integer, the rounding Python's `round` specifies
(the embedding computes it on exact rationals). -/
def roundHalfEven (x : ℚ) : ℤ :=
  if x - ⌊x⌋ < 1/2 then ⌊x⌋
  else if (1:ℚ)/2 < x - ⌊x⌋ then ⌊x⌋ + 1
  else if ⌊x⌋ % 2 = 0 then ⌊x⌋ else ⌊x⌋ + 1

/-- Embedding of `round(t, 1)` on exact rationals. -/
def pyRound1 (x : ℚ) : ℚ := (roundHalfEven (10 * x) : ℚ) / 10

/-- Embedding of `compute_tier_coverage`, returning
`(tier1, tier2, tier3)`.  Slices `[:50]`, `[50:100]`, `[100:]` are
`take 50`, `(drop 50).take 50`, `drop 100`. -/
def compute_tier_coverage (swadesh_data : List RankedEntry) (total_words : Nat) :
    ℚ × ℚ × ℚ :=
  if total_words = 0 then (0, 0, 0)
  else
    (pyRound1 ((sumFreq (swadesh_data.take TIER1_SIZE) : ℚ) / total_words * 100),
     pyRound1 ((sumFreq ((swadesh_data.drop TIER1_SIZE).take (TIER2_SIZE - TIER1_SIZE)) : ℚ) / total_words * 100),
     pyRound1 ((sumFreq (swadesh_data.drop TIER2_SIZE) : ℚ) / total_words * 100))

/-- Text consisting of the token `w` repeated `n` times, single-space
separated (the shape of input that claim C3 quantifies over). -/
def sepRepeat (w : String) : Nat → String
  | 0 => ""
  | 1 => w
  | n + 2 => w ++ " " ++ sepRepeat w (n + 1)

/-- All stored counts are at least 1 (the invariant of claim C10). -/
def CounterPos (c : CounterL) : Prop := ∀ p ∈ c, 1 ≤ p.2

/-- Merging a list of per-document counters the way the aggregator does:
`total_counter` starts empty and each arriving counter is folded in with
`Counter.update`. -/
def mergeAll (l : List CounterL) : CounterL := l.foldl counterUpdate []

theorem counterGet_incr (c : CounterL) (w x : String) :
    counterGet (counterIncr c w) x = if x = w then counterGet c w + 1 else counterGet c x := by
  induction c with
  | nil =>
      simp only [counterIncr, counterGet]
      by_cases h : w = x <;> simp [h, eq_comm]
  | cons p c ih =>
      simp only [counterIncr]
      by_cases hp : p.1 = w
      · simp only [hp, if_pos rfl, counterGet]
        by_cases hx : w = x <;> simp [hx, eq_comm]
      · simp only [if_neg hp, counterGet]
        by_cases hx : p.1 = x
        · have : ¬ x = w := fun h => hp (hx.trans h)
          simp [hx, this]
        · simp [hx, ih]

theorem counterGet_set (c : CounterL) (w x : String) (v : Nat) :
    counterGet (counterSet c w v) x = if x = w then v else counterGet c x := by
  induction c with
  | nil =>
      simp only [counterSet, counterGet]
      by_cases h : w = x <;> simp [h, eq_comm]
  | cons p c ih =>
      simp only [counterSet]
      by_cases hp : p.1 = w
      · simp only [hp, if_pos rfl, counterGet]
        by_cases hx : w = x <;> simp [hx, eq_comm]
      · simp only [if_neg hp, counterGet]
        by_cases hx : p.1 = x
        · have : ¬ x = w := fun h => hp (hx.trans h)
          simp [hx, this]
        · simp [hx, ih]

theorem mem_keysOf_incr (c : CounterL) (w x : String) :
    x ∈ keysOf (counterIncr c w) ↔ x ∈ keysOf c ∨ x = w := by
  induction c with
  | nil => simp [counterIncr, keysOf, eq_comm]
  | cons p c ih =>
      simp only [counterIncr]
      split
      · next hp =>
          subst hp
          simp only [keysOf, List.map_cons, List.mem_cons]
          tauto
      · next hp =>
          simp only [keysOf, List.map_cons, List.mem_cons] at ih ⊢
          tauto

theorem mem_keysOf_set (c : CounterL) (w x : String) (v : Nat) :
    x ∈ keysOf (counterSet c w v) ↔ x ∈ keysOf c ∨ x = w := by
  induction c with
  | nil => simp [counterSet, keysOf, eq_comm]
  | cons p c ih =>
      simp only [counterSet]
      split
      · next hp =>
          subst hp
          simp only [keysOf, List.map_cons, List.mem_cons]
          tauto
      · next hp =>
          simp only [keysOf, List.map_cons, List.mem_cons] at ih ⊢
          tauto

theorem getSum_cons (p : String × Nat) (b : CounterL) (x : String) :
    getSum (p :: b) x = (if p.1 = x then p.2 else 0) + getSum b x := by
  by_cases h : p.1 = x
  · simp [getSum, List.filter_cons, h]
  · simp [getSum, List.filter_cons, h]

theorem counterGet_update (a b : CounterL) (x : String) :
    counterGet (counterUpdate a b) x = counterGet a x + getSum b x := by
  induction b generalizing a with
  | nil => simp [counterUpdate, getSum]
  | cons p b ih =>
      show counterGet (counterUpdate (counterSet a p.1 (counterGet a p.1 + p.2)) b) x = _
      rw [ih, counterGet_set, getSum_cons]
      by_cases h : x = p.1
      · simp [h, eq_comm]
        omega
      · have h' : ¬ p.1 = x := fun hh => h hh.symm
        simp [h, h']

theorem mem_keysOf_update (a b : CounterL) (x : String) :
    x ∈ keysOf (counterUpdate a b) ↔ x ∈ keysOf a ∨ x ∈ keysOf b := by
  induction b generalizing a with
  | nil => simp [counterUpdate, keysOf]
  | cons p b ih =>
      show x ∈ keysOf (counterUpdate (counterSet a p.1 (counterGet a p.1 + p.2)) b) ↔ _
      rw [ih, mem_keysOf_set]
      simp only [keysOf, List.map_cons, List.mem_cons]
      tauto

theorem getSum_of_not_mem (c : CounterL) (x : String) (h : x ∉ keysOf c) :
    getSum c x = 0 := by
  induction c with
  | nil => simp [getSum]
  | cons p c ih =>
      simp only [keysOf, List.map_cons, List.mem_cons, not_or] at h
      rw [getSum_cons, if_neg (fun hh => h.1 hh.symm), ih h.2]

theorem getSum_eq_counterGet (c : CounterL) (x : String) (h : NodupKeys c) :
    getSum c x = counterGet c x := by
  induction c with
  | nil => simp [getSum, counterGet]
  | cons p c ih =>
      simp only [NodupKeys, keysOf, List.map_cons, List.nodup_cons] at h
      rw [getSum_cons]
      show _ = counterGet (p :: c) x
      by_cases hp : p.1 = x
      · rw [if_pos hp, counterGet, if_pos hp]
        have : x ∉ keysOf c := hp ▸ h.1
        rw [getSum_of_not_mem c x this]
        omega
      · rw [if_neg hp, counterGet, if_neg hp, ih h.2]
        omega

theorem counterGet_mergeAll (l : List CounterL) (x : String) :
    counterGet (mergeAll l) x = (l.map (fun c => getSum c x)).sum := by
  have gen : ∀ (l : List CounterL) (a : CounterL),
      counterGet (l.foldl counterUpdate a) x = counterGet a x + (l.map (fun c => getSum c x)).sum := by
    intro l
    induction l with
    | nil => simp
    | cons c l ih =>
        intro a
        simp only [List.foldl_cons, List.map_cons, List.sum_cons]
        rw [ih, counterGet_update]
        omega
  simpa [mergeAll, counterGet] using gen l []

theorem mem_keysOf_mergeAll (l : List CounterL) (x : String) :
    x ∈ keysOf (mergeAll l) ↔ ∃ c ∈ l, x ∈ keysOf c := by
  have gen : ∀ (l : List CounterL) (a : CounterL),
      x ∈ keysOf (l.foldl counterUpdate a) ↔ x ∈ keysOf a ∨ ∃ c ∈ l, x ∈ keysOf c := by
    intro l
    induction l with
    | nil => simp
    | cons c l ih =>
        intro a
        simp only [List.foldl_cons]
        rw [ih, mem_keysOf_update]
        simp only [List.mem_cons]
        constructor
        · rintro ((h | h) | ⟨d, hd, hx⟩)
          · exact Or.inl h
          · exact Or.inr ⟨c, Or.inl rfl, h⟩
          · exact Or.inr ⟨d, Or.inr hd, hx⟩
        · rintro (h | ⟨d, (rfl | hd), hx⟩)
          · exact Or.inl (Or.inl h)
          · exact Or.inl (Or.inr hx)
          · exact Or.inr ⟨d, hd, hx⟩
  have := gen l []
  simp only [keysOf, List.map_nil, List.not_mem_nil, false_or] at this
  exact this

theorem counterPos_incr (c : CounterL) (w : String) (h : CounterPos c) :
    CounterPos (counterIncr c w) := by
  induction c with
  | nil =>
      intro p hp
      simp only [counterIncr, List.mem_singleton] at hp
      simp [hp]
  | cons q c ih =>
      intro p hp
      simp only [counterIncr] at hp
      split at hp
      · rcases List.mem_cons.mp hp with h' | h'
        · subst h'
          have := h q (List.mem_cons_self q c)
          omega
        · exact h p (List.mem_cons_of_mem q h')
      · rcases List.mem_cons.mp hp with h' | h'
        · subst h'
          exact h p (List.mem_cons_self p c)
        · exact ih (fun r hr => h r (List.mem_cons_of_mem q hr)) p h'

theorem counterPos_set (c : CounterL) (w : String) (v : Nat) (hv : 1 ≤ v)
    (h : CounterPos c) : CounterPos (counterSet c w v) := by
  induction c with
  | nil =>
      intro p hp
      simp only [counterSet, List.mem_singleton] at hp
      simp [hp, hv]
  | cons q c ih =>
      intro p hp
      simp only [counterSet] at hp
      split at hp
      · rcases List.mem_cons.mp hp with h' | h'
        · subst h'; exact hv
        · exact h p (List.mem_cons_of_mem q h')
      · rcases List.mem_cons.mp hp with h' | h'
        · subst h'
          exact h p (List.mem_cons_self p c)
        · exact ih (fun r hr => h r (List.mem_cons_of_mem q hr)) p h'

theorem counterPos_update (a b : CounterL) (ha : CounterPos a) (hb : CounterPos b) :
    CounterPos (counterUpdate a b) := by
  have gen : ∀ (b a : CounterL), CounterPos a → (∀ p ∈ b, 1 ≤ p.2) →
      CounterPos (b.foldl (fun acc p => counterSet acc p.1 (counterGet acc p.1 + p.2)) a) := by
    intro b
    induction b with
    | nil => intro a ha _; exact ha
    | cons p b ih =>
        intro a ha hb
        simp only [List.foldl_cons]
        apply ih
        · apply counterPos_set
          · have := hb p (List.mem_cons_self p b)
            omega
          · exact ha
        · intro q hq
          exact hb q (List.mem_cons_of_mem p hq)
  exact gen b a ha hb

/-- `tokenStep` is: count the word exactly when `keepWord` holds. -/
theorem tokenStep_eq (c : CounterL) (w : String) :
    tokenStep c w = if keepWord w then counterIncr c w else c := by
  unfold tokenStep keepWord
  split_ifs <;> first | rfl | tauto

theorem counterPos_foldl_tokenStep (ws : List String) (c : CounterL) (h : CounterPos c) :
    CounterPos (ws.foldl tokenStep c) := by
  induction ws generalizing c with
  | nil => exact h
  | cons w ws ih =>
      simp only [List.foldl_cons]
      apply ih
      rw [tokenStep_eq]
      split
      · exact counterPos_incr c w h
      · exact h

theorem counterPos_tokenize (text : String) : CounterPos (tokenize_and_count text) := by
  apply counterPos_foldl_tokenStep
  intro p hp
  simp at hp

theorem counterGet_foldl_tokenStep (ws : List String) (c : CounterL) (x : String) :
    counterGet (ws.foldl tokenStep c) x =
      counterGet c x + (ws.filter (fun w => decide (keepWord w))).count x := by
  induction ws generalizing c with
  | nil => simp
  | cons w ws ih =>
      simp only [List.foldl_cons, List.filter_cons]
      rw [tokenStep_eq]
      by_cases hk : keepWord w
      · rw [if_pos hk, if_pos (by simpa using hk), ih, counterGet_incr]
        by_cases hx : x = w
        · subst hx
          rw [if_pos rfl, List.count_cons_self]
          omega
        · rw [if_neg hx, List.count_cons_of_ne (fun h => hx h) ]
      · rw [if_neg hk, if_neg (by simpa using hk), ih]

/-- The value `tokenize_and_count` assigns to `x` is the number of extracted
runs equal to `x` that survive the filter. -/
theorem counterGet_tokenize (text : String) (x : String) :
    counterGet (tokenize_and_count text) x =
      ((extractedRuns text).filter (fun w => decide (keepWord w))).count x := by
  rw [tokenize_and_count, counterGet_foldl_tokenStep]
  simp [counterGet]

theorem mem_keysOf_foldl_tokenStep (ws : List String) (c : CounterL) (x : String) :
    x ∈ keysOf (ws.foldl tokenStep c) ↔
      x ∈ keysOf c ∨ x ∈ ws.filter (fun w => decide (keepWord w)) := by
  induction ws generalizing c with
  | nil => simp
  | cons w ws ih =>
      simp only [List.foldl_cons, List.filter_cons]
      rw [tokenStep_eq]
      by_cases hk : keepWord w
      · rw [if_pos hk, if_pos (by simpa using hk), ih]
        rw [mem_keysOf_incr]
        simp only [List.mem_cons]
        tauto
      · rw [if_neg hk, if_neg (by simpa using hk), ih]

/-- The keys of `tokenize_and_count text` are exactly the surviving runs. -/
theorem mem_keysOf_tokenize (text : String) (x : String) :
    x ∈ keysOf (tokenize_and_count text) ↔
      x ∈ (extractedRuns text).filter (fun w => decide (keepWord w)) := by
  rw [tokenize_and_count, mem_keysOf_foldl_tokenStep]
  simp [keysOf]

instance : DecidablePred NodupKeys := fun c => by unfold NodupKeys; infer_instance

theorem keysOf_set_eq (c : CounterL) (w : String) (v : Nat) :
    keysOf (counterSet c w v) = if w ∈ keysOf c then keysOf c else keysOf c ++ [w] := by
  induction c with
  | nil => simp [counterSet, keysOf]
  | cons p c ih =>
      have hcons : ∀ (q : String × Nat) (d : CounterL), keysOf (q :: d) = q.1 :: keysOf d :=
        fun _ _ => rfl
      simp only [counterSet]
      split
      · next hp =>
          subst hp
          rw [hcons, if_pos (by rw [hcons]; exact List.mem_cons_self _ _), hcons]
      · next hp =>
          have hne : ¬ w = p.1 := fun h => hp h.symm
          rw [hcons, ih, hcons]
          by_cases hw : w ∈ keysOf c
          · rw [if_pos hw, if_pos (List.mem_cons_of_mem _ hw)]
          · rw [if_neg hw, if_neg (by simp [List.mem_cons, hw, hne]),
              List.cons_append]

theorem nodupKeys_set (c : CounterL) (w : String) (v : Nat) (h : NodupKeys c) :
    NodupKeys (counterSet c w v) := by
  unfold NodupKeys at *
  rw [keysOf_set_eq]
  split
  · exact h
  · next hw => simp [List.nodup_append, h, hw]

theorem nodupKeys_update (a b : CounterL) (h : NodupKeys a) :
    NodupKeys (counterUpdate a b) := by
  have gen : ∀ (b a : CounterL), NodupKeys a →
      NodupKeys (b.foldl (fun acc p => counterSet acc p.1 (counterGet acc p.1 + p.2)) a) := by
    intro b
    induction b with
    | nil => intro a ha; exact ha
    | cons p b ih =>
        intro a ha
        exact ih _ (nodupKeys_set _ _ _ ha)
  exact gen b a h

/-- C2.  Merging word-frequency mappings by `Counter.update` is commutative
and associative up to Python dict equality (`counterEquiv`), and reducing any
permutation of a list of per-document mappings the way the aggregator does
(`mergeAll`) yields an identical corpus mapping.  The `NodupKeys` hypotheses
state that the operands are genuine Python dicts (each key held at most
once), which every counter the pipeline builds satisfies. -/
theorem c2_merge_comm_assoc_order_independent :
    (∀ a b : CounterL, NodupKeys a → NodupKeys b →
      counterEquiv (counterUpdate a b) (counterUpdate b a)) ∧
    (∀ a b c : CounterL, NodupKeys a → NodupKeys b → NodupKeys c →
      counterEquiv (counterUpdate (counterUpdate a b) c)
        (counterUpdate a (counterUpdate b c))) ∧
    (∀ l₁ l₂ : List CounterL, l₁.Perm l₂ →
      counterEquiv (mergeAll l₁) (mergeAll l₂)) := by
  refine ⟨?_, ?_, ?_⟩
  · intro a b ha hb
    constructor
    · intro w
      rw [counterGet_update, counterGet_update, getSum_eq_counterGet a w ha,
        getSum_eq_counterGet b w hb]
      omega
    · intro w
      rw [mem_keysOf_update, mem_keysOf_update]
      tauto
  · intro a b c ha hb hc
    constructor
    · intro w
      rw [counterGet_update, counterGet_update, counterGet_update,
        getSum_eq_counterGet c w hc, getSum_eq_counterGet b w hb,
        getSum_eq_counterGet _ w (nodupKeys_update b c hb), counterGet_update,
        getSum_eq_counterGet c w hc]
      omega
    · intro w
      rw [mem_keysOf_update, mem_keysOf_update, mem_keysOf_update, mem_keysOf_update]
      tauto
  · intro l₁ l₂ hperm
    constructor
    · intro w
      rw [counterGet_mergeAll, counterGet_mergeAll]
      exact List.Perm.sum_eq (hperm.map _)
    · intro w
      rw [mem_keysOf_mergeAll, mem_keysOf_mergeAll]
      constructor
      · rintro ⟨c, hc, hx⟩
        exact ⟨c, hperm.mem_iff.mp hc, hx⟩
      · rintro ⟨c, hc, hx⟩
        exact ⟨c, hperm.mem_iff.mpr hc, hx⟩

/-- Witness for C2: the commutativity and order-independence parts applied to
the concrete mappings `{"a": 1}` and `{"b": 2}`. -/
theorem c2_witness :
    counterEquiv (counterUpdate [("a", 1)] [("b", 2)])
      (counterUpdate [("b", 2)] [("a", 1)]) ∧
    counterEquiv (mergeAll [[("a", 1)], [("b", 2)]])
      (mergeAll [[("b", 2)], [("a", 1)]]) :=
  ⟨c2_merge_comm_assoc_order_independent.1 [("a", 1)] [("b", 2)]
      (by decide) (by decide),
   c2_merge_comm_assoc_order_independent.2.2 [[("a", 1)], [("b", 2)]]
      [[("b", 2)], [("a", 1)]] (List.Perm.swap [("b", 2)] [("a", 1)] [])⟩

theorem counterPos_build (docs : List Document) :
    CounterPos ((build_frequency_counter docs).1) := by
  have gen : ∀ (docs : List Document) (acc : CounterL × List (String × Nat) × Nat),
      CounterPos acc.1 → CounterPos ((docs.foldl aggStep acc).1) := by
    intro docs
    induction docs with
    | nil => intro acc h; exact h
    | cons d docs ih =>
        intro acc h
        simp only [List.foldl_cons]
        apply ih
        unfold aggStep
        cases hp : process_single_file d with
        | none => exact h
        | some r =>
            obtain ⟨sub, path⟩ := r
            simp only
            apply counterPos_update _ _ h
            unfold process_single_file at hp
            cases he : extract_text d with
            | none => rw [he] at hp; exact absurd hp (by simp)
            | some text =>
                rw [he] at hp
                simp only at hp
                by_cases hl : text.length < 100
                · rw [if_pos hl] at hp
                  exact absurd hp (by simp)
                · rw [if_neg hl] at hp
                  have hsub : tokenize_and_count text = sub := by
                    have := Option.some.inj hp
                    exact congrArg Prod.fst this
                  rw [← hsub]
                  exact counterPos_tokenize text
  have := gen docs ([], [], 0)
  apply this
  intro p hp
  simp at hp

/-- C10.  Every stored count is at least 1, both in every per-document
mapping the tokenizer produces and in the corpus mapping the aggregator
produces: a key is only ever created by counting a surviving token, and
merging only adds positive per-document counts. -/
theorem c10_all_counts_positive :
    (∀ (text : String), ∀ p ∈ tokenize_and_count text, 1 ≤ p.2) ∧
    (∀ (docs : List Document), ∀ p ∈ (build_frequency_counter docs).1, 1 ≤ p.2) :=
  ⟨fun text => counterPos_tokenize text, fun docs => counterPos_build docs⟩

/-- Witness for C10: the invariant evaluated on the concrete text
`"hej hej"`, whose mapping holds the entry `("hej", 2)`. -/
theorem c10_witness : 1 ≤ (("hej", 2) : String × Nat).2 :=
  c10_all_counts_positive.1 "hej hej" ("hej", 2) (by decide)

theorem shared_words_length_ok :
    ∀ w ∈ SHARED_WORDS, ¬(w.length < 1 ∨ w.length > 40) := by decide

/-- C4.  For every input text and every extracted (already lowercased) run:
a run in both the noise stoplist and the shared-vocabulary allow-list is
always retained — its count is the full number of surviving occurrences, and
positive; a run in the stoplist but not in the allow-list is always dropped —
it never appears as a key of the output mapping.  Runs come out of
`extractedRuns` lowercased, so this holds regardless of the casing the word
had in the input. -/
theorem c4_stoplist_allowlist_policy (text r : String) (hr : r ∈ extractedRuns text) :
    (r ∈ ENGLISH_STOPWORDS ∧ r ∈ SHARED_WORDS →
      counterGet (tokenize_and_count text) r = (extractedRuns text).count r ∧
      0 < counterGet (tokenize_and_count text) r) ∧
    (r ∈ ENGLISH_STOPWORDS ∧ r ∉ SHARED_WORDS →
      r ∉ keysOf (tokenize_and_count text)) := by
  constructor
  · rintro ⟨hstop, hshared⟩
    have hkeep : keepWord r := by
      refine ⟨shared_words_length_ok r hshared, ?_⟩
      rintro ⟨_, hns⟩
      exact hns hshared
    have hcount : counterGet (tokenize_and_count text) r = (extractedRuns text).count r := by
      rw [counterGet_tokenize]
      exact List.count_filter (by simpa using hkeep)
    refine ⟨hcount, ?_⟩
    rw [hcount]
    exact List.count_pos_iff.mpr hr
  · rintro ⟨hstop, hshared⟩ hmem
    rw [mem_keysOf_tokenize] at hmem
    have := (List.mem_filter.mp hmem).2
    simp only [decide_eq_true_eq] at this
    exact this.2 ⟨hstop, hshared⟩

/-- Witness for C4: in the text `"in the"`, the run `"in"` (stoplisted but
shared) is retained with count 1, while `"the"` (stoplisted, not shared)
never becomes a key. -/
theorem c4_witness :
    (counterGet (tokenize_and_count "in the") "in" = (extractedRuns "in the").count "in" ∧
      0 < counterGet (tokenize_and_count "in the") "in") ∧
    "the" ∉ keysOf (tokenize_and_count "in the") :=
  ⟨(c4_stoplist_allowlist_policy "in the" "in" (by decide)).1 ⟨by decide, by decide⟩,
   (c4_stoplist_allowlist_policy "in the" "the" (by decide)).2 ⟨by decide, by decide⟩⟩

theorem runsAux_append_word (ws : List Char) (h : ∀ c ∈ ws, isWordChar c = true) :
    ∀ (rest acc : List Char), runsAux (ws ++ rest) acc = runsAux rest (ws.reverse ++ acc) := by
  induction ws with
  | nil => intro rest acc; simp
  | cons c ws ih =>
      intro rest acc
      have hc := h c (List.mem_cons_self c ws)
      have hws : ∀ x ∈ ws, isWordChar x = true := fun x hx => h x (List.mem_cons_of_mem c hx)
      show runsAux (c :: (ws ++ rest)) acc = _
      rw [runsAux, if_pos hc, ih hws rest (c :: acc)]
      simp

theorem runsAux_sep (s : Char) (hs : isWordChar s = false) (rest acc : List Char) :
    runsAux (s :: rest) acc =
      if acc.isEmpty then runsAux rest [] else acc.reverse :: runsAux rest [] := by
  rw [runsAux, if_neg (by simp [hs])]

theorem wordRuns_sepRepeat (w : String) (hne : w.data ≠ [])
    (hclass : ∀ c ∈ w.data, isWordChar c = true)
    (hlow : w.data.map pyLowerChar = w.data) :
    ∀ n, 1 ≤ n → wordRuns ((sepRepeat w n).data.map pyLowerChar) = List.replicate n w.data := by
  intro n
  induction n with
  | zero => intro h; omega
  | succ m ih =>
      intro _
      cases m with
      | zero =>
          show wordRuns (w.data.map pyLowerChar) = [w.data]
          rw [hlow]
          unfold wordRuns
          rw [← List.append_nil w.data, runsAux_append_word w.data hclass [] []]
          rw [runsAux]
          rw [if_neg (by simp [hne])]
          simp
      | succ k =>
          have hdata : (sepRepeat w (k + 2)).data = w.data ++ ' ' :: (sepRepeat w (k + 1)).data := by
            show (w ++ " " ++ sepRepeat w (k + 1)).data = _
            rw [String.data_append, String.data_append,
              show (" " : String).data = [' '] from by decide]
            simp
          rw [hdata, List.map_append, List.map_cons, hlow]
          have hsp : pyLowerChar ' ' = ' ' := by decide
          rw [hsp]
          unfold wordRuns
          rw [runsAux_append_word w.data hclass]
          rw [runsAux_sep ' ' (by decide)]
          rw [if_neg (by simp [hne])]
          have := ih (by omega)
          unfold wordRuns at this
          rw [this]
          simp [List.replicate_succ]

theorem counterIncr_replicate (w : String) :
    ∀ (n k : Nat), (List.replicate n w).foldl counterIncr [(w, k)] = [(w, k + n)] := by
  intro n
  induction n with
  | zero => intro k; simp
  | succ m ih =>
      intro k
      rw [List.replicate_succ, List.foldl_cons]
      have h1 : counterIncr [(w, k)] w = [(w, k + 1)] := by simp [counterIncr]
      have h2 : k + 1 + m = k + (m + 1) := by omega
      rw [h1, ih, h2]

theorem foldl_tokenStep_replicate (w : String) (hk : keepWord w) :
    ∀ (n : Nat) (c : CounterL),
      (List.replicate n w).foldl tokenStep c = (List.replicate n w).foldl counterIncr c := by
  intro n
  induction n with
  | zero => intro c; rfl
  | succ m ih =>
      intro c
      rw [List.replicate_succ, List.foldl_cons, List.foldl_cons, tokenStep_eq, if_pos hk, ih]

/-- C3 (amended).  For every token `w` made of lowercase letters of the
class (so that lowercasing leaves it unchanged), of length in `[1, 40]`, and
not dropped by the stop-list filter, tokenizing text that is `w` repeated
`n ≥ 1` times, whitespace-separated, yields the mapping holding exactly the
key `w` with count `n`. -/
theorem c3_repeated_token_counted (w : String) (n : Nat) (hne : w.data ≠ [])
    (hclass : ∀ c ∈ w.data, isWordChar c = true)
    (hlow : w.data.map pyLowerChar = w.data)
    (hlen : w.length ≤ 40)
    (hstop : ¬(w ∈ ENGLISH_STOPWORDS ∧ w ∉ SHARED_WORDS))
    (hn : 1 ≤ n) :
    tokenize_and_count (sepRepeat w n) = [(w, n)] := by
  have hkeep : keepWord w := by
    refine ⟨?_, hstop⟩
    rintro (h1 | h2)
    · have : w.data.length = 0 := by
        have : w.length = w.data.length := rfl
        omega
      exact hne (List.length_eq_zero.mp this)
    · omega
  have hruns : extractedRuns (sepRepeat w n) = List.replicate n w := by
    unfold extractedRuns
    rw [wordRuns_sepRepeat w hne hclass hlow n hn, List.map_replicate]
  unfold tokenize_and_count
  rw [hruns, foldl_tokenStep_replicate w hkeep]
  cases n with
  | zero => omega
  | succ m =>
      rw [List.replicate_succ, List.foldl_cons]
      have h0 : counterIncr [] w = [(w, 1)] := rfl
      have h2 : 1 + m = m + 1 := by omega
      rw [h0, counterIncr_replicate w m 1, h2]

/-- Witness for C3: the token `"hej"` repeated three times. -/
theorem c3_witness : tokenize_and_count (sepRepeat "hej" 3) = [("hej", 3)] :=
  c3_repeated_token_counted "hej" 3 (by decide) (by decide) (by decide) (by decide)
    (by decide) (by decide)

/-- Counterexample for C3 as stated: `"The"` matches the letter class with
length in `[1, 40]`, yet tokenizing it once yields the empty mapping (the
run is lowercased to `"the"`, a stop word outside the allow-list), not a
mapping with the key `"The"` mapped to 1. -/
theorem c3_counterexample : tokenize_and_count (sepRepeat "The" 1) = [] := by decide

theorem stripStart_of_no_marker (ms : List String) (t : List Char)
    (h : ∀ m ∈ ms, findSub m.data t = none) : stripStart ms t = t := by
  induction ms with
  | nil => rfl
  | cons m ms ih =>
      rw [stripStart, h m (List.mem_cons_self m ms)]
      exact ih (fun x hx => h x (List.mem_cons_of_mem m hx))

theorem stripEnd_of_no_marker (ms : List String) (t : List Char)
    (h : ∀ m ∈ ms, findSub m.data t = none) : stripEnd ms t = t := by
  induction ms with
  | nil => rfl
  | cons m ms ih =>
      rw [stripEnd, h m (List.mem_cons_self m ms)]
      exact ih (fun x hx => h x (List.mem_cons_of_mem m hx))

/-- C5 (amended).  Boilerplate stripping is idempotent on every text whose
stripped form contains no start marker and no end marker — in particular on
every marker-free text.  (In general a second pass can strip further, because
the first pass keeps everything after the first newline following the start
marker, which may itself contain another marker.) -/
theorem c5_strip_idempotent_when_clean (t : List Char)
    (hs : ∀ m ∈ START_MARKERS, findSub m.data (strip_gutenberg_boilerplate t) = none)
    (he : ∀ m ∈ END_MARKERS, findSub m.data (strip_gutenberg_boilerplate t) = none) :
    strip_gutenberg_boilerplate (strip_gutenberg_boilerplate t) =
      strip_gutenberg_boilerplate t := by
  show stripEnd END_MARKERS (stripStart START_MARKERS (strip_gutenberg_boilerplate t)) = _
  rw [stripStart_of_no_marker _ _ hs]
  exact stripEnd_of_no_marker _ _ he

/-- Witness for C5: a text holding one start marker, whose stripped form
`"hello"` is marker-free. -/
theorem c5_witness :
    strip_gutenberg_boilerplate
        (strip_gutenberg_boilerplate ("*** START OF THIS PROJECT GUTENBERG EBOOK\nhello" : String).data) =
      strip_gutenberg_boilerplate ("*** START OF THIS PROJECT GUTENBERG EBOOK\nhello" : String).data :=
  c5_strip_idempotent_when_clean _ (by decide) (by decide)

/-- Counterexample for C5 as stated: when the text left after the first strip
still holds a start marker, a second strip removes more, so
`strip(strip(t)) ≠ strip(t)`.  Here the first strip leaves
`"A\n*** START OF THIS\nB"` and the second leaves `"B"`. -/
theorem c5_counterexample :
    strip_gutenberg_boilerplate
        (strip_gutenberg_boilerplate ("*** START OF THIS\nA\n*** START OF THIS\nB" : String).data) ≠
      strip_gutenberg_boilerplate ("*** START OF THIS\nA\n*** START OF THIS\nB" : String).data := by
  decide

/-- C1 (amended).  A document whose extension is outside the supported set
makes the per-document worker return a null result, and the aggregator counts
that null like any other failure: the reported failure count grows by one and
the corpus mapping is unchanged (there is no distinct skipped bucket in the
aggregator). -/
theorem c1_unsupported_counted_as_failure (d : Document) (hd : d.ext ∉ supportedExts) :
    process_single_file d = none ∧
    ∀ docs : List Document,
      (build_frequency_counter (docs ++ [d])).2.2 = (build_frequency_counter docs).2.2 + 1 ∧
      (build_frequency_counter (docs ++ [d])).1 = (build_frequency_counter docs).1 := by
  have hnull : process_single_file d = none := by
    unfold process_single_file extract_text
    rw [if_neg (by simpa using hd)]
  refine ⟨hnull, ?_⟩
  intro docs
  unfold build_frequency_counter
  rw [List.foldl_append]
  simp only [List.foldl_cons, List.foldl_nil]
  unfold aggStep
  rw [hnull]
  exact ⟨rfl, rfl⟩

/-- Witness for C1 (amended), at a concrete `.doc` document. -/
theorem c1_witness :
    process_single_file ⟨"books/x.doc", ".doc", some "irrelevant"⟩ = none ∧
    (build_frequency_counter ([] ++ [⟨"books/x.doc", ".doc", some "irrelevant"⟩])).2.2 =
      (build_frequency_counter []).2.2 + 1 :=
  ⟨(c1_unsupported_counted_as_failure ⟨"books/x.doc", ".doc", some "irrelevant"⟩ (by decide)).1,
   ((c1_unsupported_counted_as_failure ⟨"books/x.doc", ".doc", some "irrelevant"⟩ (by decide)).2 []).1⟩

/-- Counterexample for C1 as stated: the claim says an unsupported-format
document leaves the reported failure count unchanged, but feeding the single
`.doc` document to the aggregator yields `n_failed = 1`, not `0`. -/
theorem c1_counterexample :
    process_single_file ⟨"books/y.doc", ".doc", some "whatever"⟩ = none ∧
    (build_frequency_counter [⟨"books/y.doc", ".doc", some "whatever"⟩]).2.2 = 1 := by
  exact ⟨rfl, rfl⟩

/-- C9.  With the extracted text in hand: exactly 99 characters make the
worker return a null result and the aggregator count one more failure;
exactly 100 characters make the worker return the tokenized mapping (no
null for the length reason). -/
theorem c9_minimum_length_threshold (d : Document) (text : String)
    (hx : extract_text d = some text) :
    (text.length = 99 →
      process_single_file d = none ∧
      ∀ docs : List Document,
        (build_frequency_counter (docs ++ [d])).2.2 = (build_frequency_counter docs).2.2 + 1) ∧
    (text.length = 100 →
      process_single_file d = some (tokenize_and_count text, d.path)) := by
  constructor
  · intro h99
    have hnull : process_single_file d = none := by
      unfold process_single_file
      rw [hx]
      simp only
      rw [if_pos (by omega)]
    refine ⟨hnull, ?_⟩
    intro docs
    unfold build_frequency_counter
    rw [List.foldl_append]
    simp only [List.foldl_cons, List.foldl_nil]
    unfold aggStep
    rw [hnull]
  · intro h100
    unfold process_single_file
    rw [hx]
    simp only
    rw [if_neg (by omega)]

/-- Witness for C9: a 99-character text fails and is counted, a
100-character text is tokenized. -/
theorem c9_witness :
    (process_single_file ⟨"books/a.txt", ".txt", some (String.mk (List.replicate 99 'a'))⟩ = none ∧
      (build_frequency_counter ([] ++ [⟨"books/a.txt", ".txt", some (String.mk (List.replicate 99 'a'))⟩])).2.2 =
        (build_frequency_counter []).2.2 + 1) ∧
    process_single_file ⟨"books/b.txt", ".txt", some (String.mk (List.replicate 100 'a'))⟩ =
      some (tokenize_and_count (String.mk (List.replicate 100 'a')),
        ("books/b.txt" : String)) := by
  constructor
  · have h := (c9_minimum_length_threshold
        ⟨"books/a.txt", ".txt", some (String.mk (List.replicate 99 'a'))⟩
        (String.mk (List.replicate 99 'a')) rfl).1 (by decide)
    exact ⟨h.1, h.2 []⟩
  · exact (c9_minimum_length_threshold
        ⟨"books/b.txt", ".txt", some (String.mk (List.replicate 100 'a'))⟩
        (String.mk (List.replicate 100 'a')) rfl).2 (by decide)

/-- The unsorted join `build_swadesh_data` starts from: one Ranked Entry per
`SWADESH_SWEDISH` item, in original vocabulary-list order, with
`freq = total_counter.get(sv, 0)` (0 when the word is absent). -/
def rankedBase (total_counter : CounterL) : List RankedEntry :=
  SWADESH_SWEDISH.map (fun p => ⟨p.1, p.2, counterGet total_counter p.1⟩)

theorem build_swadesh_data_eq (c : CounterL) :
    build_swadesh_data c = sortDesc (rankedBase c) := rfl

theorem insertDesc_perm (x : RankedEntry) (l : List RankedEntry) :
    (insertDesc x l).Perm (x :: l) := by
  induction l with
  | nil => exact List.Perm.refl _
  | cons y ys ih =>
      rw [insertDesc]
      split
      · exact List.Perm.refl _
      · exact (ih.cons y).trans (List.Perm.swap x y ys)

theorem sortDesc_perm (l : List RankedEntry) : (sortDesc l).Perm l := by
  induction l with
  | nil => exact List.Perm.refl _
  | cons x xs ih =>
      rw [sortDesc]
      exact (insertDesc_perm x (sortDesc xs)).trans (ih.cons x)

theorem insertDesc_sorted (x : RankedEntry) (l : List RankedEntry)
    (h : l.Pairwise (fun a b => b.freq ≤ a.freq)) :
    (insertDesc x l).Pairwise (fun a b => b.freq ≤ a.freq) := by
  induction l with
  | nil => exact List.pairwise_singleton _ _
  | cons y ys ih =>
      rw [insertDesc]
      rcases List.pairwise_cons.mp h with ⟨hy, hys⟩
      split
      · next hle =>
          refine List.pairwise_cons.mpr ⟨?_, h⟩
          intro z hz
          rcases List.mem_cons.mp hz with rfl | hz'
          · exact hle
          · exact le_trans (hy z hz') hle
      · next hgt =>
          refine List.pairwise_cons.mpr ⟨?_, ih hys⟩
          intro z hz
          have hz' := (insertDesc_perm x ys).mem_iff.mp hz
          rcases List.mem_cons.mp hz' with rfl | hz''
          · omega
          · exact hy z hz''

theorem sortDesc_sorted (l : List RankedEntry) :
    (sortDesc l).Pairwise (fun a b => b.freq ≤ a.freq) := by
  induction l with
  | nil => exact List.Pairwise.nil
  | cons x xs ih =>
      rw [sortDesc]
      exact insertDesc_sorted x (sortDesc xs) ih

theorem filter_insertDesc (x : RankedEntry) (l : List RankedEntry) (v : Nat) :
    (insertDesc x l).filter (fun e => e.freq == v) =
      if x.freq = v then x :: l.filter (fun e => e.freq == v)
      else l.filter (fun e => e.freq == v) := by
  induction l with
  | nil =>
      by_cases hx : x.freq = v
      · simp [insertDesc, hx]
      · simp [insertDesc, hx]
  | cons y ys ih =>
      rw [insertDesc]
      split
      · next hle =>
          by_cases hx : x.freq = v
          · simp [List.filter_cons, hx]
          · simp [List.filter_cons, hx]
      · next hgt =>
          by_cases hx : x.freq = v
          · rw [if_pos hx]
            by_cases hy : y.freq = v
            · omega
            · simp [List.filter_cons, hy, ih, hx]
          · rw [if_neg hx]
            by_cases hy : y.freq = v
            · simp [List.filter_cons, hy, ih, hx]
            · simp [List.filter_cons, hy, ih, hx]

theorem sortDesc_filter_stable (l : List RankedEntry) (v : Nat) :
    (sortDesc l).filter (fun e => e.freq == v) = l.filter (fun e => e.freq == v) := by
  induction l with
  | nil => rfl
  | cons x xs ih =>
      rw [sortDesc, filter_insertDesc]
      by_cases hx : x.freq = v
      · rw [if_pos hx, ih, List.filter_cons, if_pos (by simpa using hx)]
      · rw [if_neg hx, ih, List.filter_cons, if_neg (by simpa using hx)]

/-- C6.  For every corpus mapping, `build_swadesh_data` returns a permutation
of the full join (`rankedBase`: one entry per reference-vocabulary word, with
frequency 0 for absent words), sorted by frequency descending, and for every
frequency value the entries carrying it appear exactly in their original
vocabulary-list order (stability of the tie-break). -/
theorem c6_ranked_entries_sorted_stable (c : CounterL) :
    (build_swadesh_data c).Perm (rankedBase c) ∧
    (build_swadesh_data c).Pairwise (fun a b => b.freq ≤ a.freq) ∧
    ∀ v : Nat, (build_swadesh_data c).filter (fun e => e.freq == v) =
      (rankedBase c).filter (fun e => e.freq == v) := by
  rw [build_swadesh_data_eq]
  exact ⟨sortDesc_perm _, sortDesc_sorted _, fun v => sortDesc_filter_stable _ v⟩

/-- C8.  When the corpus total word count is 0, the tier-coverage
computation returns exactly `(0, 0, 0)` for every Ranked Entry list: the
guard short-circuits before any division. -/
theorem c8_zero_corpus_zero_tiers (swadesh_data : List RankedEntry) :
    compute_tier_coverage swadesh_data 0 = (0, 0, 0) := rfl

theorem roundHalfEven_le_add_half (x : ℚ) : (roundHalfEven x : ℚ) ≤ x + 1/2 := by
  have hfl := Int.floor_le x
  have hfr := Int.sub_one_lt_floor x
  unfold roundHalfEven
  split_ifs <;> push_cast <;> linarith

theorem roundHalfEven_nonneg (x : ℚ) (hx : 0 ≤ x) : 0 ≤ roundHalfEven x := by
  have h0 : 0 ≤ ⌊x⌋ := Int.floor_nonneg.mpr hx
  unfold roundHalfEven
  split_ifs <;> omega

theorem roundHalfEven_le_bound (x : ℚ) (B : ℤ) (h : x ≤ B) : roundHalfEven x ≤ B := by
  have h1 := roundHalfEven_le_add_half x
  have h2 : (roundHalfEven x : ℚ) < (B : ℚ) + 1 := by linarith
  have h3 : roundHalfEven x < B + 1 := by exact_mod_cast h2
  omega

theorem pyRound1_nonneg (x : ℚ) (hx : 0 ≤ x) : 0 ≤ pyRound1 x := by
  unfold pyRound1
  have : (0 : ℚ) ≤ (roundHalfEven (10 * x) : ℚ) := by
    exact_mod_cast roundHalfEven_nonneg (10 * x) (by linarith)
  positivity

theorem pyRound1_le_100 (x : ℚ) (hx : x ≤ 100) : pyRound1 x ≤ 100 := by
  unfold pyRound1
  have h : roundHalfEven (10 * x) ≤ (1000 : ℤ) :=
    roundHalfEven_le_bound (10 * x) 1000 (by push_cast; linarith)
  have h' : (roundHalfEven (10 * x) : ℚ) ≤ 1000 := by exact_mod_cast h
  linarith

theorem pyRound1_sum_le (t1 t2 t3 : ℚ) (hsum : t1 + t2 + t3 ≤ 100) :
    pyRound1 t1 + pyRound1 t2 + pyRound1 t3 ≤ 1001/10 := by
  have b1 := roundHalfEven_le_add_half (10 * t1)
  have b2 := roundHalfEven_le_add_half (10 * t2)
  have b3 := roundHalfEven_le_add_half (10 * t3)
  have hq : (roundHalfEven (10 * t1) : ℚ) + (roundHalfEven (10 * t2) : ℚ)
      + (roundHalfEven (10 * t3) : ℚ) < 1002 := by linarith
  have hz : roundHalfEven (10 * t1) + roundHalfEven (10 * t2) + roundHalfEven (10 * t3)
      < (1002 : ℤ) := by exact_mod_cast hq
  have hz2 : roundHalfEven (10 * t1) + roundHalfEven (10 * t2) + roundHalfEven (10 * t3)
      ≤ (1001 : ℤ) := by omega
  have hz3 : (roundHalfEven (10 * t1) : ℚ) + (roundHalfEven (10 * t2) : ℚ)
      + (roundHalfEven (10 * t3) : ℚ) ≤ 1001 := by exact_mod_cast hz2
  unfold pyRound1
  linarith

theorem sum_counterGet_cons_le (p : String × Nat) (c : CounterL) (W : List String)
    (hW : W.Nodup) :
    (W.map (counterGet (p :: c))).sum ≤ p.2 + (W.map (counterGet c)).sum := by
  induction W with
  | nil => simp
  | cons w W ih =>
      rcases List.nodup_cons.mp hW with ⟨hwW, hWnd⟩
      simp only [List.map_cons, List.sum_cons]
      by_cases hp : p.1 = w
      · have hhead : counterGet (p :: c) w = p.2 := by
          rw [counterGet, if_pos hp]
        have htail : W.map (counterGet (p :: c)) = W.map (counterGet c) := by
          apply List.map_congr_left
          intro u hu
          have : ¬ p.1 = u := fun h => hwW (by rw [← hp, h]; exact hu)
          rw [counterGet, if_neg this]
        rw [hhead, htail]
        have : 0 ≤ counterGet c w := Nat.zero_le _
        omega
      · have hhead : counterGet (p :: c) w = counterGet c w := by
          rw [counterGet, if_neg hp]
        rw [hhead]
        have := ih hWnd
        omega

theorem sum_counterGet_le_totalValues (c : CounterL) (W : List String) (hW : W.Nodup) :
    (W.map (counterGet c)).sum ≤ totalValues c := by
  induction c with
  | nil =>
      have : W.map (counterGet []) = W.map (fun _ => 0) := by
        apply List.map_congr_left
        intro u _
        rfl
      simp [this, totalValues]
  | cons p c ih =>
      have h1 := sum_counterGet_cons_le p c W hW
      have h2 : totalValues (p :: c) = p.2 + totalValues c := by
        simp [totalValues]
      omega

def swadeshKeys : List String := SWADESH_SWEDISH.map Prod.fst

set_option maxRecDepth 100000 in
theorem swadeshKeys_nodup : swadeshKeys.Nodup := by decide

theorem sumFreq_append (l₁ l₂ : List RankedEntry) :
    sumFreq (l₁ ++ l₂) = sumFreq l₁ + sumFreq l₂ := by
  simp [sumFreq]

theorem sumFreq_tiers (sd : List RankedEntry) :
    sumFreq (sd.take TIER1_SIZE) +
      sumFreq ((sd.drop TIER1_SIZE).take (TIER2_SIZE - TIER1_SIZE)) +
      sumFreq (sd.drop TIER2_SIZE) = sumFreq sd := by
  have h1 : sd.take TIER1_SIZE ++ sd.drop TIER1_SIZE = sd := List.take_append_drop _ _
  have h2 : (sd.drop TIER1_SIZE).take (TIER2_SIZE - TIER1_SIZE) ++
      (sd.drop TIER1_SIZE).drop (TIER2_SIZE - TIER1_SIZE) = sd.drop TIER1_SIZE :=
    List.take_append_drop _ _
  have h3 : (sd.drop TIER1_SIZE).drop (TIER2_SIZE - TIER1_SIZE) = sd.drop TIER2_SIZE := by
    have harith : TIER1_SIZE + (TIER2_SIZE - TIER1_SIZE) = TIER2_SIZE := by
      norm_num [TIER1_SIZE, TIER2_SIZE]
    rw [List.drop_drop, harith]
  calc sumFreq (sd.take TIER1_SIZE) +
      sumFreq ((sd.drop TIER1_SIZE).take (TIER2_SIZE - TIER1_SIZE)) +
      sumFreq (sd.drop TIER2_SIZE)
      = sumFreq (sd.take TIER1_SIZE) +
        (sumFreq ((sd.drop TIER1_SIZE).take (TIER2_SIZE - TIER1_SIZE)) +
         sumFreq ((sd.drop TIER1_SIZE).drop (TIER2_SIZE - TIER1_SIZE))) := by
        rw [h3]; omega
    _ = sumFreq (sd.take TIER1_SIZE) + sumFreq (sd.drop TIER1_SIZE) := by
        rw [← sumFreq_append, h2]
    _ = sumFreq sd := by rw [← sumFreq_append, h1]

theorem sumFreq_perm (l₁ l₂ : List RankedEntry) (h : l₁.Perm l₂) :
    sumFreq l₁ = sumFreq l₂ :=
  List.Perm.sum_eq (h.map _)

theorem sumFreq_build_le_total (c : CounterL) :
    sumFreq (build_swadesh_data c) ≤ totalValues c := by
  have h1 : sumFreq (build_swadesh_data c) = sumFreq (rankedBase c) := by
    rw [build_swadesh_data_eq]
    exact sumFreq_perm _ _ (sortDesc_perm _)
  have h2 : sumFreq (rankedBase c) = (swadeshKeys.map (counterGet c)).sum := by
    unfold sumFreq rankedBase swadeshKeys
    rw [List.map_map, List.map_map]
    rfl
  rw [h1, h2]
  exact sum_counterGet_le_totalValues c swadeshKeys swadeshKeys_nodup

theorem sumFreq_slice_le (sd : List RankedEntry) (T : Nat) (h : sumFreq sd ≤ T) :
    sumFreq (sd.take TIER1_SIZE) ≤ T ∧
    sumFreq ((sd.drop TIER1_SIZE).take (TIER2_SIZE - TIER1_SIZE)) ≤ T ∧
    sumFreq (sd.drop TIER2_SIZE) ≤ T := by
  have := sumFreq_tiers sd
  omega

/-- C7 (amended).  For every corpus mapping with positive total word count,
each tier percentage returned by `compute_tier_coverage` (computed over the
ranked vocabulary list of that corpus) lies within `[0, 100]`; the sum of the
three UNROUNDED shares is at most 100, but because each component is rounded
to one decimal before being returned, the reported sum can exceed 100 by at
most one tenth: `tier1 + tier2 + tier3 ≤ 100.1`. -/
theorem c7_tier_coverage_bounds (c : CounterL) (htot : 0 < totalValues c) :
    (0 ≤ (compute_tier_coverage (build_swadesh_data c) (totalValues c)).1 ∧
      (compute_tier_coverage (build_swadesh_data c) (totalValues c)).1 ≤ 100) ∧
    (0 ≤ (compute_tier_coverage (build_swadesh_data c) (totalValues c)).2.1 ∧
      (compute_tier_coverage (build_swadesh_data c) (totalValues c)).2.1 ≤ 100) ∧
    (0 ≤ (compute_tier_coverage (build_swadesh_data c) (totalValues c)).2.2 ∧
      (compute_tier_coverage (build_swadesh_data c) (totalValues c)).2.2 ≤ 100) ∧
    (compute_tier_coverage (build_swadesh_data c) (totalValues c)).1 +
      (compute_tier_coverage (build_swadesh_data c) (totalValues c)).2.1 +
      (compute_tier_coverage (build_swadesh_data c) (totalValues c)).2.2 ≤ 1001/10 := by
  have hT : totalValues c ≠ 0 := by omega
  have hcomp : compute_tier_coverage (build_swadesh_data c) (totalValues c) =
      (pyRound1 ((sumFreq ((build_swadesh_data c).take TIER1_SIZE) : ℚ) / (totalValues c) * 100),
       pyRound1 ((sumFreq (((build_swadesh_data c).drop TIER1_SIZE).take (TIER2_SIZE - TIER1_SIZE)) : ℚ) / (totalValues c) * 100),
       pyRound1 ((sumFreq ((build_swadesh_data c).drop TIER2_SIZE) : ℚ) / (totalValues c) * 100)) := by
    unfold compute_tier_coverage
    rw [if_neg hT]
  have hsum_le : sumFreq ((build_swadesh_data c).take TIER1_SIZE) +
      sumFreq (((build_swadesh_data c).drop TIER1_SIZE).take (TIER2_SIZE - TIER1_SIZE)) +
      sumFreq ((build_swadesh_data c).drop TIER2_SIZE) ≤ totalValues c := by
    have h1 := sumFreq_tiers (build_swadesh_data c)
    have h2 := sumFreq_build_le_total c
    omega
  have hTpos : (0:ℚ) < (totalValues c : ℚ) := by exact_mod_cast htot
  have key : ∀ s : Nat, s ≤ totalValues c →
      0 ≤ (s:ℚ) / (totalValues c) * 100 ∧ (s:ℚ) / (totalValues c) * 100 ≤ 100 := by
    intro s hs
    have hsq : (s:ℚ) ≤ (totalValues c : ℚ) := by exact_mod_cast hs
    constructor
    · positivity
    · rw [div_mul_eq_mul_div, div_le_iff hTpos]
      linarith
  have hsum100 :
      (sumFreq ((build_swadesh_data c).take TIER1_SIZE) : ℚ) / (totalValues c) * 100 +
      (sumFreq (((build_swadesh_data c).drop TIER1_SIZE).take (TIER2_SIZE - TIER1_SIZE)) : ℚ) / (totalValues c) * 100 +
      (sumFreq ((build_swadesh_data c).drop TIER2_SIZE) : ℚ) / (totalValues c) * 100 ≤ 100 := by
    have hq : (sumFreq ((build_swadesh_data c).take TIER1_SIZE) : ℚ) +
        (sumFreq (((build_swadesh_data c).drop TIER1_SIZE).take (TIER2_SIZE - TIER1_SIZE)) : ℚ) +
        (sumFreq ((build_swadesh_data c).drop TIER2_SIZE) : ℚ) ≤ (totalValues c : ℚ) := by
      exact_mod_cast hsum_le
    rw [div_mul_eq_mul_div, div_mul_eq_mul_div, div_mul_eq_mul_div, ← add_div, ← add_div,
      div_le_iff hTpos]
    linarith
  have hb1 := key _ (by omega : sumFreq ((build_swadesh_data c).take TIER1_SIZE) ≤ totalValues c)
  have hb2 := key _ (by omega : sumFreq (((build_swadesh_data c).drop TIER1_SIZE).take (TIER2_SIZE - TIER1_SIZE)) ≤ totalValues c)
  have hb3 := key _ (by omega : sumFreq ((build_swadesh_data c).drop TIER2_SIZE) ≤ totalValues c)
  rw [hcomp]
  exact ⟨⟨pyRound1_nonneg _ hb1.1, pyRound1_le_100 _ hb1.2⟩,
    ⟨pyRound1_nonneg _ hb2.1, pyRound1_le_100 _ hb2.2⟩,
    ⟨pyRound1_nonneg _ hb3.1, pyRound1_le_100 _ hb3.2⟩,
    pyRound1_sum_le _ _ _ hsum100⟩

/-- Witness for C7 (amended): the bounds at the concrete one-word corpus
`{"jag": 150}`. -/
theorem c7_witness :
    (0 ≤ (compute_tier_coverage (build_swadesh_data [("jag", 150)]) (totalValues [("jag", 150)])).1 ∧
      (compute_tier_coverage (build_swadesh_data [("jag", 150)]) (totalValues [("jag", 150)])).1 ≤ 100) ∧
    (0 ≤ (compute_tier_coverage (build_swadesh_data [("jag", 150)]) (totalValues [("jag", 150)])).2.1 ∧
      (compute_tier_coverage (build_swadesh_data [("jag", 150)]) (totalValues [("jag", 150)])).2.1 ≤ 100) ∧
    (0 ≤ (compute_tier_coverage (build_swadesh_data [("jag", 150)]) (totalValues [("jag", 150)])).2.2 ∧
      (compute_tier_coverage (build_swadesh_data [("jag", 150)]) (totalValues [("jag", 150)])).2.2 ≤ 100) ∧
    (compute_tier_coverage (build_swadesh_data [("jag", 150)]) (totalValues [("jag", 150)])).1 +
      (compute_tier_coverage (build_swadesh_data [("jag", 150)]) (totalValues [("jag", 150)])).2.1 +
      (compute_tier_coverage (build_swadesh_data [("jag", 150)]) (totalValues [("jag", 150)])).2.2 ≤ 1001/10 :=
  c7_tier_coverage_bounds [("jag", 150)] (by decide)

theorem pyRound1_eq_of_up (x : ℚ) (n : ℤ) (hlo : (n:ℚ) ≤ 10 * x) (hhi : 10 * x < (n:ℚ) + 1)
    (hfr : 1/2 < 10 * x - (n:ℚ)) : pyRound1 x = ((n:ℚ) + 1) / 10 := by
  have hfl : ⌊(10:ℚ) * x⌋ = n := Int.floor_eq_iff.mpr ⟨hlo, hhi⟩
  unfold pyRound1 roundHalfEven
  rw [hfl]
  rw [if_neg (by linarith), if_pos hfr]
  push_cast
  ring

/-- A concrete corpus on which the reported tier percentages sum above 100:
32 vocabulary words occur 4 times, 18 occur 3 times, 39 occur twice and 40
once — 300 words in total, tier sums 182 / 89 / 29, shares 60.666… /
29.666… / 9.666…, each rounded UP to the next tenth. -/
def c300 : CounterL :=
  (swadeshKeys.take 32).map (fun w => (w, 4)) ++
  ((swadeshKeys.drop 32).take 18).map (fun w => (w, 3)) ++
  ((swadeshKeys.drop 50).take 39).map (fun w => (w, 2)) ++
  ((swadeshKeys.drop 89).take 40).map (fun w => (w, 1))

set_option maxRecDepth 100000 in
/-- Counterexample for C7 as stated: on the corpus `c300` (total word count
300 > 0) the three reported tier percentages are 60.7, 29.7 and 9.7, which
sum to 100.1 > 100. -/
theorem c7_counterexample :
    0 < totalValues c300 ∧
    ¬((compute_tier_coverage (build_swadesh_data c300) (totalValues c300)).1 +
      (compute_tier_coverage (build_swadesh_data c300) (totalValues c300)).2.1 +
      (compute_tier_coverage (build_swadesh_data c300) (totalValues c300)).2.2 ≤ 100) := by
  have htv : totalValues c300 = 300 := by decide
  have h1 : sumFreq ((build_swadesh_data c300).take TIER1_SIZE) = 182 := by decide
  have h2 : sumFreq (((build_swadesh_data c300).drop TIER1_SIZE).take (TIER2_SIZE - TIER1_SIZE)) = 89 := by
    decide
  have h3 : sumFreq ((build_swadesh_data c300).drop TIER2_SIZE) = 29 := by decide
  have hcomp : compute_tier_coverage (build_swadesh_data c300) (totalValues c300) =
      (pyRound1 (((182:Nat):ℚ) / ((300:Nat):ℚ) * 100),
       pyRound1 (((89:Nat):ℚ) / ((300:Nat):ℚ) * 100),
       pyRound1 (((29:Nat):ℚ) / ((300:Nat):ℚ) * 100)) := by
    rw [htv]
    unfold compute_tier_coverage
    rw [if_neg (by norm_num), h1, h2, h3]
  have e1 : pyRound1 (((182:Nat):ℚ) / ((300:Nat):ℚ) * 100) = 607/10 := by
    rw [pyRound1_eq_of_up _ 606 (by norm_num) (by norm_num) (by norm_num)]
    norm_num
  have e2 : pyRound1 (((89:Nat):ℚ) / ((300:Nat):ℚ) * 100) = 297/10 := by
    rw [pyRound1_eq_of_up _ 296 (by norm_num) (by norm_num) (by norm_num)]
    norm_num
  have e3 : pyRound1 (((29:Nat):ℚ) / ((300:Nat):ℚ) * 100) = 97/10 := by
    rw [pyRound1_eq_of_up _ 96 (by norm_num) (by norm_num) (by norm_num)]
    norm_num
  refine ⟨by omega, ?_⟩
  rw [hcomp]
  simp only [e1, e2, e3]
  norm_num
